import Mathlib

/-!
# Verification of the deeperwin shared-optimization core

Shallow embedding of the parameter partitioner (`deeperwin/utils.py`:
`split_params`, `merge_params`, `get_params_filter_func`), the device
replication layer (`replicate_across_devices`), the scheduling policy
(`get_index`), the running-metric update and the epoch loop of
`optimize_shared` (`deeperwin/process_molecules_shared.py`), together with
proofs of the specification claims about them.

Modelling conventions:
* haiku parameter collections (`Mapping[module_name, Mapping[name, array]]`)
  are flattened to association lists keyed by `(module_name, name)`; a leaf
  array is modelled by an `Int` value, since only bit-identity of leaves
  matters here.  Python `dict` equality is lookup-extensional, so dictionary
  equality is expressed via lookups (and via `List.Perm` for duplicate-free
  association lists).
* the compiled regex alternation `"(" + "|".join(module_names) + ")"` is
  modelled as literal-substring search of each module-name pattern inside
  the leaf path `f"{module_name}/{name}"`; an empty alternation branch (and
  the empty alternation `"()"`) matches everywhere.
-/

namespace DeepErwin

/-- A parameter leaf key in a haiku parameter collection: `(module_name, name)`. -/
abbrev ParamKey := String × String

/-- A haiku parameter collection, flattened to an association list from
`(module_name, name)` keys to leaf values. -/
abbrev Params := List (ParamKey × Int)

/-- First-match lookup by key, the access semantics of the (duplicate-free)
Python dictionaries being modelled. -/
def plookup (k : ParamKey) : Params → Option Int
  | [] => none
  | kv :: rest => if kv.1 = k then some kv.2 else plookup k rest

/-- Key-membership test, `k in d` on the flattened dictionary. -/
def containsKey (p : Params) (k : ParamKey) : Bool := (plookup k p).isSome

/-- The string the filter function tests: `f"{module_name}/{name}"`. -/
def path (k : ParamKey) : String := k.1 ++ "/" ++ k.2

/-- `leadsWith p s`: the character list `p` starts the character list `s`. -/
def leadsWith : List Char → List Char → Bool
  | [], _ => true
  | _ :: _, [] => false
  | c :: cs, d :: ds => c = d && leadsWith cs ds

/-- `occursIn p s`: the character list `p` occurs contiguously inside `s`
(at any position, the empty pattern occurring everywhere). -/
def occursIn (p : List Char) : List Char → Bool
  | [] => leadsWith p []
  | d :: rest => leadsWith p (d :: rest) || occursIn p rest

/-- One alternation branch of the compiled regex matching inside a string:
`re.findall` reports a match iff some branch occurs as a substring
(module-name patterns are treated as literal strings). -/
def pattern_matches (p s : String) : Bool :=
  occursIn p.toList s.toList

/-- `get_params_filter_func(module_names)` applied to a leaf key: true iff
`re.compile("(" + "|".join(module_names) + ")")` finds at least one match in
`module_name + "/" + name`.  With an empty module-name list the compiled
regex is `"()"`, which matches the empty string, hence every path. -/
def filter_func (module_names : List String) (k : ParamKey) : Bool :=
  module_names.isEmpty || module_names.any (fun p => pattern_matches p (path k))

/-- `split_params(params, module_names)`: `hk.data_structures.partition` of
the collection by the filter function; matching leaves first (the shared
part), the rest second (the unique part). -/
def split_params (params : Params) (module_names : List String) :
    Params × Params :=
  params.partition (fun kv => filter_func module_names kv.1)

/-- `merge_params(params_old, params_new)`, i.e.
`hk.data_structures.merge(params_old, params_new)`: haiku's merge writes the
structures' leaves into one output dictionary in argument order, so on a
duplicate key the later structure's value silently overwrites the earlier
one; no error is raised on duplicates.  Expressed here so that lookups in
`params_new` take precedence. -/
def merge_params (params_old params_new : Params) : Params :=
  params_old.filter (fun kv => !(containsKey params_new kv.1)) ++ params_new

@[simp]
theorem plookup_nil (k : ParamKey) : plookup k [] = none := rfl

@[simp]
theorem plookup_cons (k : ParamKey) (kv : ParamKey × Int) (rest : Params) :
    plookup k (kv :: rest) =
      if kv.1 = k then some kv.2 else plookup k rest := rfl

theorem plookup_append (k : ParamKey) (a b : Params) :
    plookup k (a ++ b) = ((plookup k a).orElse (fun _ => plookup k b)) := by
  induction a with
  | nil => simp [Option.orElse]
  | cons kv rest ih =>
      by_cases h : kv.1 = k <;> simp [h, ih, Option.orElse]

theorem plookup_filter_of_pos {q : ParamKey → Bool} {k : ParamKey}
    (h : q k = true) (p : Params) :
    plookup k (p.filter (fun kv => q kv.1)) = plookup k p := by
  induction p with
  | nil => rfl
  | cons kv rest ih =>
      by_cases hk : kv.1 = k
      · subst hk; simp [h, ih]
      · by_cases hq : q kv.1 <;> simp [hq, hk, ih]

theorem plookup_filter_of_neg {q : ParamKey → Bool} {k : ParamKey}
    (h : q k = false) (p : Params) :
    plookup k (p.filter (fun kv => q kv.1)) = none := by
  induction p with
  | nil => rfl
  | cons kv rest ih =>
      by_cases hk : kv.1 = k
      · subst hk; simp [h, ih]
      · by_cases hq : q kv.1 <;> simp [hq, hk, ih]

/-- Lookup in a merged collection: the second collection takes precedence. -/
theorem plookup_merge_params (a b : Params) (k : ParamKey) :
    plookup k (merge_params a b) =
      ((plookup k b).orElse (fun _ => plookup k a)) := by
  cases hb : plookup k b with
  | some v =>
      have h1 : plookup k (List.filter (fun kv => !(containsKey b kv.1)) a) = none :=
        plookup_filter_of_neg (q := fun k2 => !(containsKey b k2))
          (by simp [containsKey, hb]) a
      simp [merge_params, plookup_append, h1, hb, Option.orElse]
  | none =>
      have h1 : plookup k (List.filter (fun kv => !(containsKey b kv.1)) a) =
          plookup k a :=
        plookup_filter_of_pos (q := fun k2 => !(containsKey b k2))
          (by simp [containsKey, hb]) a
      cases ha : plookup k a <;>
        simp [merge_params, plookup_append, h1, ha, hb, Option.orElse]

theorem split_params_eq_filter (P : Params) (patterns : List String) :
    split_params P patterns =
      (P.filter (fun kv => filter_func patterns kv.1),
       P.filter (fun kv => !(filter_func patterns kv.1))) := by
  rw [split_params, List.partition_eq_filter_filter]
  rfl

theorem plookup_mem_of_isSome {k : ParamKey} {l : Params}
    (h : (plookup k l).isSome) : ∃ v, (k, v) ∈ l := by
  induction l with
  | nil => simp [plookup] at h
  | cons kv rest ih =>
      by_cases hk : kv.1 = k
      · exact ⟨kv.2, by simp [← hk]⟩
      · simp only [plookup_cons, if_neg hk] at h
        obtain ⟨v, hv⟩ := ih h
        exact ⟨v, List.mem_cons_of_mem _ hv⟩

/-- On a split produced by a key-determined predicate the two parts never
share a key, so the overwrite step of `merge_params` drops nothing and the
merge is plain concatenation. -/
theorem merge_params_filter_split (q : ParamKey → Bool) (P : Params) :
    merge_params (P.filter (fun kv => q kv.1)) (P.filter (fun kv => !(q kv.1))) =
      P.filter (fun kv => q kv.1) ++ P.filter (fun kv => !(q kv.1)) := by
  unfold merge_params
  rw [List.filter_eq_self.mpr]
  intro kv hkv
  have hq : q kv.1 = true := (List.mem_filter.mp hkv).2
  simp only [Bool.not_eq_eq_eq_not, Bool.not_true]
  cases hc : containsKey (P.filter (fun kv => !(q kv.1))) kv.1 with
  | false => rfl
  | true =>
      exfalso
      obtain ⟨v, hv⟩ := plookup_mem_of_isSome (l := P.filter (fun kv => !(q kv.1)))
        (by simp [containsKey] at hc ⊢; exact hc)
      have : q kv.1 = false := by
        have := (List.mem_filter.mp hv).2
        simpa using this
      simp [hq] at this

theorem plookup_filter_split_append (q : ParamKey → Bool) (P : Params)
    (k : ParamKey) :
    plookup k (P.filter (fun kv => q kv.1) ++ P.filter (fun kv => !(q kv.1))) =
      plookup k P := by
  rw [plookup_append]
  cases hq : q k with
  | true =>
      rw [plookup_filter_of_pos (q := q) hq,
        plookup_filter_of_neg (q := fun k2 => !(q k2)) (by simp [hq])]
      cases plookup k P <;> simp [Option.orElse]
  | false =>
      rw [plookup_filter_of_neg (q := q) hq,
        plookup_filter_of_pos (q := fun k2 => !(q k2)) (by simp [hq])]
      simp [Option.orElse]

/-- C1: for every full parameter set `P` and every internally
non-overlapping set of name patterns (each parameter leaf matches at most
one pattern), merging the two parts returned by `split_params(P, patterns)`
reconstructs `P` exactly: the result is a permutation of `P`'s leaf
entries (Python dictionary equality for the duplicate-free `P`) and every
leaf looks up bit-identically. -/
theorem c1_split_merge_roundtrip (P : Params) (patterns : List String)
    (hnodup : (P.map Prod.fst).Nodup)
    (hnov : ∀ kv ∈ P,
      (patterns.filter (fun p => pattern_matches p (path kv.1))).length ≤ 1) :
    (merge_params (split_params P patterns).1 (split_params P patterns).2).Perm P ∧
      ∀ k, plookup k
          (merge_params (split_params P patterns).1 (split_params P patterns).2) =
        plookup k P := by
  rw [split_params_eq_filter]
  rw [merge_params_filter_split (q := fun k2 => filter_func patterns k2) P]
  refine ⟨List.filter_append_perm _ P, ?_⟩
  intro k
  exact plookup_filter_split_append (q := fun k2 => filter_func patterns k2) P k

/-- Witness for C1 at a concrete two-leaf parameter set with one shared
module pattern. -/
theorem c1_split_merge_roundtrip_witness :
    (([(("embed", "w"), (3 : Int)), (("head", "b"), 5)].map Prod.fst).Nodup ∧
      ∀ kv ∈ [(("embed", "w"), (3 : Int)), (("head", "b"), 5)],
        ((["embed"]).filter
          (fun p => pattern_matches p (path kv.1))).length ≤ 1) ∧
    ((merge_params
        (split_params [(("embed", "w"), (3 : Int)), (("head", "b"), 5)] ["embed"]).1
        (split_params [(("embed", "w"), (3 : Int)), (("head", "b"), 5)] ["embed"]).2).Perm
      [(("embed", "w"), (3 : Int)), (("head", "b"), 5)] ∧
      ∀ k, plookup k
          (merge_params
            (split_params [(("embed", "w"), (3 : Int)), (("head", "b"), 5)] ["embed"]).1
            (split_params [(("embed", "w"), (3 : Int)), (("head", "b"), 5)] ["embed"]).2) =
        plookup k [(("embed", "w"), (3 : Int)), (("head", "b"), 5)]) :=
  ⟨⟨by decide, by decide⟩,
    c1_split_merge_roundtrip _ ["embed"] (by decide) (by decide)⟩

/-- C2 counterexample: two partitions sharing the key `("m", "w")`.
`merge_params` returns normally (haiku's merge raises no error), and the
first partition's entry `(("m","w"), 1)` is silently dropped: the result
holds only the second partition's value. -/
theorem c2_merge_overlap_counterexample :
    merge_params [(("m", "w"), (1 : Int))] [(("m", "w"), (2 : Int))] =
        [(("m", "w"), (2 : Int))] ∧
      ((("m", "w"), (1 : Int)) ∉
        merge_params [(("m", "w"), (1 : Int))] [(("m", "w"), (2 : Int))]) := by
  constructor
  · rfl
  · decide

/-- C2 amended: `merge_params(a, b)` never raises; it returns the union of
the two partitions in which, at every shared key, the second argument's
entry takes precedence and the first argument's entry is silently dropped. -/
theorem c2_merge_overlap_amended (a b : Params) (k : ParamKey) :
    plookup k (merge_params a b) =
      if containsKey b k then plookup k b else plookup k a := by
  rw [plookup_merge_params]
  cases hb : plookup k b <;> simp [containsKey, hb, Option.orElse]

/-! ## Device replication layer (`deeperwin/utils.py`, `replicate_across_devices`)

One leaf array is modelled as a flat vector of elements; `tree_map` applies
leaf-wise, so a single leaf suffices.  The device axis produced by
`jnp.tile` is the outer list. -/

/-- `jnp.zeros_like` on one leaf array. -/
def zeros_like (x : List Int) : List Int := x.map (fun _ => 0)

/-- Pointwise addition of two equally-shaped leaf arrays. -/
def vecAdd (a b : List Int) : List Int := List.zipWith (fun u v => u + v) a b

/-- Per-device branch of `_select_master_data`: device `i` keeps its copy iff
`jax.lax.axis_index("devices") == 0`, otherwise replaces it by zeros. -/
def mask_nonroot_from (i : Nat) : List (List Int) → List (List Int)
  | [] => []
  | x :: xs => (if i = 0 then x else zeros_like x) :: mask_nonroot_from (i + 1) xs

/-- `jax.lax.psum` over the device axis: every device receives the pointwise
sum of all per-device contributions. -/
def psum_broadcast (copies : List (List Int)) : List (List Int) :=
  match copies with
  | [] => []
  | y :: ys => List.replicate (ys.length + 1) (ys.foldl vecAdd y)

/-- The pmapped `_select_master_data`: zero out every non-root contribution,
then sum across the device axis. -/
def select_master_data (copies : List (List Int)) : List (List Int) :=
  psum_broadcast (mask_nonroot_from 0 copies)

/-- `replicate_across_devices(data)` on one leaf array `x` with `D` local
devices: step 1 tiles `x` into `D` per-device copies, step 2 replaces the
data on each device by the data from device 0. -/
def replicate_across_devices (D : Nat) (x : List Int) : List (List Int) :=
  select_master_data (List.replicate D x)

theorem vecAdd_zeros_like (x : List Int) : vecAdd x (zeros_like x) = x := by
  induction x with
  | nil => rfl
  | cons a as ih => simp [vecAdd, zeros_like] at ih ⊢; exact ih

theorem mask_nonroot_from_replicate (x : List Int) :
    ∀ (d i : Nat), i ≠ 0 →
      mask_nonroot_from i (List.replicate d x) =
        List.replicate d (zeros_like x) := by
  intro d
  induction d with
  | zero => intro i _; rfl
  | succ d ih =>
      intro i hi
      simp only [List.replicate_succ, mask_nonroot_from, if_neg hi]
      rw [ih (i + 1) (by omega)]

theorem foldl_vecAdd_replicate_zeros (x : List Int) :
    ∀ d : Nat,
      List.foldl vecAdd x (List.replicate d (zeros_like x)) = x := by
  intro d
  induction d with
  | zero => rfl
  | succ d ih =>
      simp only [List.replicate_succ, List.foldl_cons, vecAdd_zeros_like]
      exact ih

/-- C3: for every leaf array, immediately after `replicate_across_devices`
all `D` per-device copies are element-wise identical and each equals the
root device's (device 0's) original data. -/
theorem c3_replication_consistency (D : Nat) (x : List Int) (hD : 0 < D) :
    replicate_across_devices D x = List.replicate D x ∧
      ∀ c ∈ replicate_across_devices D x, c = x := by
  obtain ⟨d, rfl⟩ : ∃ d, D = d + 1 := ⟨D - 1, by omega⟩
  have hmain : replicate_across_devices (d + 1) x = List.replicate (d + 1) x := by
    unfold replicate_across_devices select_master_data
    rw [List.replicate_succ]
    rw [show mask_nonroot_from 0 (x :: List.replicate d x) =
      x :: mask_nonroot_from 1 (List.replicate d x) from rfl]
    rw [mask_nonroot_from_replicate x d 1 (by omega)]
    simp only [psum_broadcast, List.length_replicate,
      foldl_vecAdd_replicate_zeros]
    rw [List.replicate_succ]
  refine ⟨hmain, ?_⟩
  intro c hc
  rw [hmain] at hc
  exact List.eq_of_mem_replicate hc

/-- Witness for C3 with `D = 4` devices and a two-element leaf. -/
theorem c3_replication_consistency_witness :
    0 < 4 ∧
      (replicate_across_devices 4 [(1 : Int), 2] = List.replicate 4 [1, 2] ∧
        ∀ c ∈ replicate_across_devices 4 [(1 : Int), 2], c = [1, 2]) :=
  ⟨by decide, c3_replication_consistency 4 [1, 2] (by decide)⟩

/-! ## Scheduling policy (`process_molecules_shared.py`, `get_index`) -/

/-- Per-target record `WaveFunctionData`, restricted to the fields the
scheduler and the epoch loop read and write.  `e_std` models
`current_metrics['E_std']`, the running stddev of the latest objective
sample, as an exact rational. -/
structure WaveFunctionData where
  unique_trainable_params : Params := []
  e_std : ℚ := 0
  n_opt_epochs : Nat := 0
  last_epoch_optimized : Int := 0
deriving Inhabited, DecidableEq

/-- The `shared_optimization` section of the configuration. -/
structure SharedOptimizationConfig where
  scheduling_method : String
  max_age : Int
  shared_modules : List String := []
deriving Inhabited, DecidableEq

/-- `np.argmax` / `jnp.argmax`: index of the first occurrence of the
maximum value (0 on the empty list). -/
def argmax {α : Type} [LinearOrder α] : List α → Nat
  | [] => 0
  | x :: xs =>
    match xs[argmax xs]? with
    | none => 0
    | some m => if x < m then argmax xs + 1 else 0

theorem getD_eq_of_getElem? {α : Type} {l : List α} {i : Nat} {d v : α}
    (h : l[i]? = some v) : l.getD i d = v := by
  simp [List.getD, h]

/-- `argmax` returns an in-range index holding the maximum, and every
earlier entry is strictly smaller (first-occurrence tie-break). -/
theorem argmax_spec {α : Type} [LinearOrder α] (l : List α) (d : α)
    (hne : l ≠ []) :
    argmax l < l.length ∧
      (∀ j, j < l.length → l.getD j d ≤ l.getD (argmax l) d) ∧
      (∀ j, j < argmax l → l.getD j d < l.getD (argmax l) d) := by
  induction l with
  | nil => exact absurd rfl hne
  | cons x xs ih =>
      by_cases hxs : xs = []
      · subst hxs
        refine ⟨by simp [argmax], ?_, ?_⟩
        · intro j hj
          have hj0 : j = 0 := by simpa using hj
          subst hj0
          exact le_refl _
        · intro j hj
          simp [argmax] at hj
      · obtain ⟨hr, hmax, hstrict⟩ := ih hxs
        have hget : xs[argmax xs]? = some (xs.getD (argmax xs) d) := by
          rw [List.getElem?_eq_getElem hr, List.getD_eq_getElem?_getD,
            List.getElem?_eq_getElem hr]
          rfl
        have hax : argmax (x :: xs) =
            if x < xs.getD (argmax xs) d then argmax xs + 1 else 0 := by
          conv_lhs => rw [argmax]
          rw [hget]
        have hcons : ∀ j : Nat, (x :: xs).getD (j + 1) d = xs.getD j d := by
          intro j; rfl
        by_cases hlt : x < xs.getD (argmax xs) d
        · have hax1 : argmax (x :: xs) = argmax xs + 1 := by
            rw [hax, if_pos hlt]
          refine ⟨by simp [hax1]; omega, ?_, ?_⟩
          · intro j hj
            rw [hax1, hcons]
            cases j with
            | zero => exact le_of_lt hlt
            | succ j2 =>
                rw [hcons]
                exact hmax j2 (by simpa using hj)
          · intro j hj
            rw [hax1] at hj
            rw [hax1, hcons]
            cases j with
            | zero => exact hlt
            | succ j2 =>
                rw [hcons]
                exact hstrict j2 (by omega)
        · have hax0 : argmax (x :: xs) = 0 := by rw [hax, if_neg hlt]
          have hxm : xs.getD (argmax xs) d ≤ x := le_of_not_lt hlt
          refine ⟨by simp [hax0], ?_, ?_⟩
          · intro j hj
            rw [hax0]
            cases j with
            | zero => exact le_refl _
            | succ j2 =>
                rw [hcons]
                exact le_trans (hmax j2 (by simpa using hj)) hxm
          · intro j hj
            rw [hax0] at hj
            omega

/-- The per-target ages `n_epoch - jnp.array([wf.last_epoch_optimized ...])`. -/
def wf_ages (n_epoch : Nat) (wfs : List WaveFunctionData) : List Int :=
  wfs.map (fun wf => (n_epoch : Int) - wf.last_epoch_optimized)

/-- The per-target running stddevs `[wf.current_metrics['E_std'] ...]`. -/
def wf_stddevs (wfs : List WaveFunctionData) : List ℚ :=
  wfs.map (fun wf => wf.e_std)

/-- `get_index(n_epoch, wfs, config)`: the scheduling policy.  For an
unsupported method the code executes `raise ("Wavefunction scheduler
currently not supported.")`, aborting with that fixed message (a bare
string, not an exception type, so CPython in fact surfaces a `TypeError`);
modelled as an error result carrying the message string. -/
def get_index (n_epoch : Nat) (wfs : List WaveFunctionData)
    (config : SharedOptimizationConfig) : Except String Nat :=
  if config.scheduling_method = "round_robin" then
    Except.ok (n_epoch % wfs.length)
  else if config.scheduling_method = "stddev" then
    if n_epoch < wfs.length * 10 then
      Except.ok (n_epoch % wfs.length)
    else if (wf_ages n_epoch wfs).any (fun a => config.max_age < a) then
      Except.ok (argmax (wf_ages n_epoch wfs))
    else
      Except.ok (argmax (wf_stddevs wfs))
  else
    Except.error "Wavefunction scheduler currently not supported."

/-- C4: with method `stddev` and at least one target, `get_index` selects
round-robin (`n mod k`) during warm-up (`n < 10 k`); afterwards, if some
age exceeds `max_age`, the first target of maximal age; otherwise the
first target of maximal running stddev. -/
theorem c4_stddev_scheduling (n : Nat) (wfs : List WaveFunctionData)
    (ma : Int) (mods : List String) (hne : wfs ≠ []) :
    (n < wfs.length * 10 →
      get_index n wfs ⟨"stddev", ma, mods⟩ = Except.ok (n % wfs.length) ∧
      get_index n wfs ⟨"stddev", ma, mods⟩ =
        get_index n wfs ⟨"round_robin", ma, mods⟩) ∧
    (wfs.length * 10 ≤ n →
      (∃ a ∈ wf_ages n wfs, ma < a) →
      get_index n wfs ⟨"stddev", ma, mods⟩ =
          Except.ok (argmax (wf_ages n wfs)) ∧
        argmax (wf_ages n wfs) < wfs.length ∧
        (∀ j, j < wfs.length →
          (wf_ages n wfs).getD j 0 ≤
            (wf_ages n wfs).getD (argmax (wf_ages n wfs)) 0) ∧
        (∀ j, j < argmax (wf_ages n wfs) →
          (wf_ages n wfs).getD j 0 <
            (wf_ages n wfs).getD (argmax (wf_ages n wfs)) 0)) ∧
    (wfs.length * 10 ≤ n →
      (∀ a ∈ wf_ages n wfs, a ≤ ma) →
      get_index n wfs ⟨"stddev", ma, mods⟩ =
          Except.ok (argmax (wf_stddevs wfs)) ∧
        argmax (wf_stddevs wfs) < wfs.length ∧
        (∀ j, j < wfs.length →
          (wf_stddevs wfs).getD j 0 ≤
            (wf_stddevs wfs).getD (argmax (wf_stddevs wfs)) 0) ∧
        (∀ j, j < argmax (wf_stddevs wfs) →
          (wf_stddevs wfs).getD j 0 <
            (wf_stddevs wfs).getD (argmax (wf_stddevs wfs)) 0)) := by
  refine ⟨?_, ?_, ?_⟩
  · intro hwarm
    constructor <;> simp [get_index, hwarm]
  · intro hn hage
    have hanytrue : (wf_ages n wfs).any (fun a => ma < a) = true := by
      rw [List.any_eq_true]
      obtain ⟨a, ha, hma⟩ := hage
      exact ⟨a, ha, by simpa using hma⟩
    have hlen : (wf_ages n wfs).length = wfs.length := by
      simp [wf_ages]
    have hagene : wf_ages n wfs ≠ [] := by
      intro hc
      exact hne (by simpa [hc] using hlen.symm)
    obtain ⟨h1, h2, h3⟩ := argmax_spec (wf_ages n wfs) 0 hagene
    refine ⟨?_, by omega, ?_, h3⟩
    · simp [get_index, hanytrue, Nat.not_lt.mpr hn]
    · intro j hj
      exact h2 j (by omega)
  · intro hn hage
    have hanyfalse : (wf_ages n wfs).any (fun a => ma < a) = false := by
      rw [Bool.eq_false_iff]
      intro hc
      rw [List.any_eq_true] at hc
      obtain ⟨a, ha, hma⟩ := hc
      exact absurd (hage a ha) (by simpa using hma)
    have hlen : (wf_stddevs wfs).length = wfs.length := by
      simp [wf_stddevs]
    have hstdne : wf_stddevs wfs ≠ [] := by
      intro hc
      exact hne (by simpa [hc] using hlen.symm)
    obtain ⟨h1, h2, h3⟩ := argmax_spec (wf_stddevs wfs) 0 hstdne
    refine ⟨?_, by omega, ?_, h3⟩
    · simp [get_index, hanyfalse, Nat.not_lt.mpr hn]
    · intro j hj
      exact h2 j (by omega)

/-- Witness for C4: two targets, one with age above `max_age`. -/
theorem c4_stddev_scheduling_witness :
    ([⟨[], 0, 0, 0⟩, ⟨[], 1, 0, 5⟩] : List WaveFunctionData) ≠ [] ∧
      ((20 < ([⟨[], 0, 0, 0⟩, ⟨[], 1, 0, 5⟩] : List WaveFunctionData).length * 10 →
        get_index 20 [⟨[], 0, 0, 0⟩, ⟨[], 1, 0, 5⟩] ⟨"stddev", 3, []⟩ =
            Except.ok (20 % ([⟨[], 0, 0, 0⟩, ⟨[], 1, 0, 5⟩] :
              List WaveFunctionData).length) ∧
          get_index 20 [⟨[], 0, 0, 0⟩, ⟨[], 1, 0, 5⟩] ⟨"stddev", 3, []⟩ =
            get_index 20 [⟨[], 0, 0, 0⟩, ⟨[], 1, 0, 5⟩] ⟨"round_robin", 3, []⟩) ∧
      (([⟨[], 0, 0, 0⟩, ⟨[], 1, 0, 5⟩] : List WaveFunctionData).length * 10 ≤ 20 →
        (∃ a ∈ wf_ages 20 [⟨[], 0, 0, 0⟩, ⟨[], 1, 0, 5⟩], (3 : Int) < a) →
        get_index 20 [⟨[], 0, 0, 0⟩, ⟨[], 1, 0, 5⟩] ⟨"stddev", 3, []⟩ =
            Except.ok (argmax (wf_ages 20 [⟨[], 0, 0, 0⟩, ⟨[], 1, 0, 5⟩])) ∧
          argmax (wf_ages 20 [⟨[], 0, 0, 0⟩, ⟨[], 1, 0, 5⟩]) <
            ([⟨[], 0, 0, 0⟩, ⟨[], 1, 0, 5⟩] : List WaveFunctionData).length ∧
          (∀ j, j < ([⟨[], 0, 0, 0⟩, ⟨[], 1, 0, 5⟩] : List WaveFunctionData).length →
            (wf_ages 20 [⟨[], 0, 0, 0⟩, ⟨[], 1, 0, 5⟩]).getD j 0 ≤
              (wf_ages 20 [⟨[], 0, 0, 0⟩, ⟨[], 1, 0, 5⟩]).getD
                (argmax (wf_ages 20 [⟨[], 0, 0, 0⟩, ⟨[], 1, 0, 5⟩])) 0) ∧
          (∀ j, j < argmax (wf_ages 20 [⟨[], 0, 0, 0⟩, ⟨[], 1, 0, 5⟩]) →
            (wf_ages 20 [⟨[], 0, 0, 0⟩, ⟨[], 1, 0, 5⟩]).getD j 0 <
              (wf_ages 20 [⟨[], 0, 0, 0⟩, ⟨[], 1, 0, 5⟩]).getD
                (argmax (wf_ages 20 [⟨[], 0, 0, 0⟩, ⟨[], 1, 0, 5⟩])) 0)) ∧
      (([⟨[], 0, 0, 0⟩, ⟨[], 1, 0, 5⟩] : List WaveFunctionData).length * 10 ≤ 20 →
        (∀ a ∈ wf_ages 20 [⟨[], 0, 0, 0⟩, ⟨[], 1, 0, 5⟩], a ≤ (3 : Int)) →
        get_index 20 [⟨[], 0, 0, 0⟩, ⟨[], 1, 0, 5⟩] ⟨"stddev", 3, []⟩ =
            Except.ok (argmax (wf_stddevs [⟨[], 0, 0, 0⟩, ⟨[], 1, 0, 5⟩])) ∧
          argmax (wf_stddevs [⟨[], 0, 0, 0⟩, ⟨[], 1, 0, 5⟩]) <
            ([⟨[], 0, 0, 0⟩, ⟨[], 1, 0, 5⟩] : List WaveFunctionData).length ∧
          (∀ j, j < ([⟨[], 0, 0, 0⟩, ⟨[], 1, 0, 5⟩] : List WaveFunctionData).length →
            (wf_stddevs [⟨[], 0, 0, 0⟩, ⟨[], 1, 0, 5⟩]).getD j 0 ≤
              (wf_stddevs [⟨[], 0, 0, 0⟩, ⟨[], 1, 0, 5⟩]).getD
                (argmax (wf_stddevs [⟨[], 0, 0, 0⟩, ⟨[], 1, 0, 5⟩])) 0) ∧
          (∀ j, j < argmax (wf_stddevs [⟨[], 0, 0, 0⟩, ⟨[], 1, 0, 5⟩]) →
            (wf_stddevs [⟨[], 0, 0, 0⟩, ⟨[], 1, 0, 5⟩]).getD j 0 <
              (wf_stddevs [⟨[], 0, 0, 0⟩, ⟨[], 1, 0, 5⟩]).getD
                (argmax (wf_stddevs [⟨[], 0, 0, 0⟩, ⟨[], 1, 0, 5⟩])) 0))) :=
  ⟨List.cons_ne_nil _ _,
    c4_stddev_scheduling 20 [⟨[], 0, 0, 0⟩, ⟨[], 1, 0, 5⟩] 3 []
      (List.cons_ne_nil _ _)⟩

/-- C9 counterexample: for the unsupported method `"foo"` the code aborts
with the fixed message `"Wavefunction scheduler currently not supported."`,
which does not contain (hence does not name) the offending value. -/
theorem c9_unsupported_method_counterexample :
    get_index 0 [⟨[], 0, 0, 0⟩] ⟨"foo", 5, []⟩ =
        Except.error "Wavefunction scheduler currently not supported." ∧
      pattern_matches "foo"
        "Wavefunction scheduler currently not supported." = false := by
  constructor
  · rfl
  · decide

/-- C9 amended: for every scheduling method other than `round_robin` and
`stddev`, `get_index` fails, but with the fixed message `"Wavefunction
scheduler currently not supported."` that does not name the offending
method value. -/
theorem c9_unsupported_method_amended (n : Nat) (wfs : List WaveFunctionData)
    (cfg : SharedOptimizationConfig)
    (h1 : cfg.scheduling_method ≠ "round_robin")
    (h2 : cfg.scheduling_method ≠ "stddev") :
    get_index n wfs cfg =
      Except.error "Wavefunction scheduler currently not supported." := by
  simp [get_index, h1, h2]

/-- Witness for C9 amended at the concrete method value `"foo"`. -/
theorem c9_unsupported_method_amended_witness :
    ("foo" ≠ "round_robin" ∧ "foo" ≠ "stddev") ∧
      get_index 3 [⟨[], 0, 0, 0⟩] ⟨"foo", 5, []⟩ =
        Except.error "Wavefunction scheduler currently not supported." :=
  ⟨⟨by decide, by decide⟩,
    c9_unsupported_method_amended 3 [⟨[], 0, 0, 0⟩] ⟨"foo", 5, []⟩
      (by decide) (by decide)⟩

/-! ## Running metrics (`optimize_shared`, `wf.current_metrics` update)

Objective sample values are modelled exactly: a sample is either a finite
rational, NaN, or a signed infinity, with IEEE-style propagation through
the reductions.  The standard deviation is tracked via its square (the
variance), which avoids the irrational square root and is faithful for
every comparison stated here because squaring is monotone on nonnegative
reals. -/

/-- One objective sample value. -/
inductive FVal : Type
  | fin (q : ℚ)
  | nan
  | inf
  | ninf
deriving Inhabited, DecidableEq

def FVal.isNan : FVal → Bool
  | nan => true
  | _ => false

/-- IEEE-style addition. -/
def FVal.add : FVal → FVal → FVal
  | fin a, fin b => fin (a + b)
  | nan, _ => nan
  | _, nan => nan
  | inf, ninf => nan
  | ninf, inf => nan
  | inf, _ => inf
  | _, inf => inf
  | ninf, _ => ninf
  | _, ninf => ninf

def FVal.neg : FVal → FVal
  | fin a => fin (-a)
  | nan => nan
  | inf => ninf
  | ninf => inf

def FVal.sub (a b : FVal) : FVal := a.add b.neg

/-- IEEE-style multiplication (`0 * inf = nan`). -/
def FVal.mul : FVal → FVal → FVal
  | fin a, fin b => fin (a * b)
  | nan, _ => nan
  | _, nan => nan
  | fin a, inf => if 0 < a then inf else if a < 0 then ninf else nan
  | inf, fin a => if 0 < a then inf else if a < 0 then ninf else nan
  | fin a, ninf => if 0 < a then ninf else if a < 0 then inf else nan
  | ninf, fin a => if 0 < a then ninf else if a < 0 then inf else nan
  | inf, inf => inf
  | inf, ninf => ninf
  | ninf, inf => ninf
  | ninf, ninf => inf

/-- Division by a (positive) element count. -/
def FVal.divNat : FVal → Nat → FVal
  | fin q, n => fin (q / n)
  | nan, _ => nan
  | inf, _ => inf
  | ninf, _ => ninf

/-- Sum reduction of a sample array. -/
def fsum (xs : List FVal) : FVal := xs.foldl FVal.add (FVal.fin 0)

/-- Mean of a sample array; the mean of an empty slice is NaN. -/
def fmean (xs : List FVal) : FVal :=
  if xs.isEmpty then FVal.nan else (fsum xs).divNat xs.length

/-- `jnp.nanstd(xs)` squared: the variance over the entries that are not
NaN.  Only NaN is treated as missing; infinite entries are kept (as in
`numpy.nanstd`) and propagate. -/
def nanstd_sq (xs : List FVal) : FVal :=
  fmean ((xs.filter (fun v => !v.isNan)).map
    (fun x => (x.sub (fmean (xs.filter (fun v => !v.isNan)))).mul
      (x.sub (fmean (xs.filter (fun v => !v.isNan))))))

/-- `wf.current_metrics` as assigned at the end of an epoch:
`dict(E_mean=stats["aux"]["E_loc_clipped"],
E_std=jnp.nanstd(stats["aux"]["E_loc_clipped"]))`.  The code stores the
raw clipped sample array itself under `E_mean`, not a mean of it. -/
structure CurrentMetrics where
  E_mean : List FVal
  E_std_sq : FVal
deriving DecidableEq

def update_current_metrics (E_loc_clipped : List FVal) : CurrentMetrics :=
  { E_mean := E_loc_clipped, E_std_sq := nanstd_sq E_loc_clipped }

/-- The finite entries of a sample array (what the specification's
"ignoring non-finite entries" refers to). -/
def finite_vals (xs : List FVal) : List ℚ :=
  xs.filterMap (fun v =>
    match v with
    | FVal.fin q => some q
    | _ => none)

/-- Exact mean of a rational list. -/
def qmean (l : List ℚ) : ℚ := l.sum / l.length

/-- Exact (population) variance of a rational list. -/
def qvar (l : List ℚ) : ℚ :=
  (l.map (fun x => (x - qmean l) * (x - qmean l))).sum / l.length

theorem filter_not_nan_of_no_inf {xs : List FVal}
    (h : ∀ v ∈ xs, v ≠ FVal.inf ∧ v ≠ FVal.ninf) :
    xs.filter (fun v => !(v.isNan)) = (finite_vals xs).map FVal.fin := by
  induction xs with
  | nil => rfl
  | cons v rest ih =>
      have hrest := ih (fun w hw => h w (List.mem_cons_of_mem _ hw))
      cases v with
      | fin q => simpa [finite_vals, FVal.isNan, List.filterMap] using hrest
      | nan => simpa [finite_vals, FVal.isNan, List.filterMap] using hrest
      | inf => exact absurd rfl (h FVal.inf (List.mem_cons_self _ _)).1
      | ninf => exact absurd rfl (h FVal.ninf (List.mem_cons_self _ _)).2

theorem foldl_add_map_fin (l : List ℚ) :
    ∀ q : ℚ, List.foldl FVal.add (FVal.fin q) (l.map FVal.fin) =
      FVal.fin (q + l.sum) := by
  induction l with
  | nil => intro q; simp
  | cons a rest ih =>
      intro q
      simp only [List.map_cons, List.foldl_cons, FVal.add, List.sum_cons]
      rw [ih (q + a)]
      ring_nf

theorem fsum_map_fin (l : List ℚ) :
    fsum (l.map FVal.fin) = FVal.fin l.sum := by
  rw [fsum, foldl_add_map_fin l 0, zero_add]

theorem fmean_map_fin {l : List ℚ} (h : l ≠ []) :
    fmean (l.map FVal.fin) = FVal.fin (qmean l) := by
  rw [fmean, if_neg (by simpa using h), fsum_map_fin]
  simp [FVal.divNat, qmean]

theorem map_sub_mul_fin (l : List ℚ) (m : ℚ) :
    (l.map FVal.fin).map
        (fun x => (x.sub (FVal.fin m)).mul (x.sub (FVal.fin m))) =
      (l.map (fun a => (a - m) * (a - m))).map FVal.fin := by
  induction l with
  | nil => rfl
  | cons a rest ih =>
      have hhead :
          ((FVal.fin a).sub (FVal.fin m)).mul ((FVal.fin a).sub (FVal.fin m)) =
            FVal.fin ((a - m) * (a - m)) := by
        show FVal.fin ((a + -m) * (a + -m)) = FVal.fin ((a - m) * (a - m))
        rw [sub_eq_add_neg]
      simp only [List.map_cons, hhead, ih]

/-- C5 counterexample: the claim fails on the code.  On the clipped sample
array `[1, 3, NaN]` the stored `E_mean` is the raw array itself, not the
finite-entry mean `2`; on `[1, +inf]` the stored stddev is NaN, while the
stddev over only the finite entries would be `0` --- non-finite entries are
neither averaged out of `E_mean` (which is no mean at all) nor excluded
from `nanstd`, which drops only NaN. -/
theorem c5_nan_metrics_counterexample :
    (update_current_metrics [FVal.fin 1, FVal.fin 3, FVal.nan]).E_mean =
        [FVal.fin 1, FVal.fin 3, FVal.nan] ∧
      qmean (finite_vals [FVal.fin 1, FVal.fin 3, FVal.nan]) = 2 ∧
      (update_current_metrics [FVal.fin 1, FVal.fin 3, FVal.nan]).E_mean ≠
        [FVal.fin (qmean (finite_vals [FVal.fin 1, FVal.fin 3, FVal.nan]))] ∧
      (update_current_metrics [FVal.fin 1, FVal.inf]).E_std_sq = FVal.nan ∧
      qvar (finite_vals [FVal.fin 1, FVal.inf]) = 0 ∧
      (update_current_metrics [FVal.fin 1, FVal.inf]).E_std_sq ≠
        FVal.fin (qvar (finite_vals [FVal.fin 1, FVal.inf])) := by
  refine ⟨rfl, ?_, ?_, rfl, ?_, ?_⟩
  · norm_num [qmean, finite_vals, List.filterMap]
  · simp [update_current_metrics]
  · norm_num [qvar, qmean, finite_vals, List.filterMap]
  · have h4 : nanstd_sq [FVal.fin 1, FVal.inf] = FVal.nan := rfl
    simp [update_current_metrics, h4]

/-- C5 amended: `E_mean` is assigned the raw clipped sample array rather
than any mean; `E_std` is the stddev over only the non-NaN entries, so in
the absence of infinite samples (and with at least one finite sample) it
equals the stddev over only the finite entries, NaN samples excluded. -/
theorem c5_nan_metrics_amended (xs : List FVal)
    (hnoinf : ∀ v ∈ xs, v ≠ FVal.inf ∧ v ≠ FVal.ninf)
    (hfin : finite_vals xs ≠ []) :
    (update_current_metrics xs).E_mean = xs ∧
      (update_current_metrics xs).E_std_sq =
        FVal.fin (qvar (finite_vals xs)) := by
  refine ⟨rfl, ?_⟩
  show nanstd_sq xs = FVal.fin (qvar (finite_vals xs))
  rw [nanstd_sq, filter_not_nan_of_no_inf hnoinf, fmean_map_fin hfin,
    map_sub_mul_fin, fmean_map_fin (by simpa using hfin), qvar]
  congr 1
  rw [qmean]
  simp

/-- Witness for C5 amended on the sample array `[1, 3, NaN]`. -/
theorem c5_nan_metrics_amended_witness :
    ((∀ v ∈ [FVal.fin 1, FVal.fin 3, FVal.nan],
        v ≠ FVal.inf ∧ v ≠ FVal.ninf) ∧
      finite_vals [FVal.fin 1, FVal.fin 3, FVal.nan] ≠ []) ∧
    ((update_current_metrics [FVal.fin 1, FVal.fin 3, FVal.nan]).E_mean =
        [FVal.fin 1, FVal.fin 3, FVal.nan] ∧
      (update_current_metrics [FVal.fin 1, FVal.fin 3, FVal.nan]).E_std_sq =
        FVal.fin (qvar (finite_vals [FVal.fin 1, FVal.fin 3, FVal.nan]))) :=
  ⟨⟨by decide, by decide⟩,
    c5_nan_metrics_amended [FVal.fin 1, FVal.fin 3, FVal.nan]
      (by decide) (by decide)⟩

/-! ## The epoch loop of `optimize_shared`

The loop is embedded at the parameter-tree level.  External collaborators
are abstracted: `optimizer.step` becomes an arbitrary function `step` on
full parameter trees (its statistics bundle enters only through the
resulting running stddev, abstracted as `std_fn`); the sampler state
transitions (`run_inter_steps`, `build_batch`) do not touch parameters or
scheduling state and are not modelled; device replication is the identity
at the tree level.  The per-step `wf_loggers[i].log_step(...)` call indexes
the logger list with the variable `i` left over from the earlier burn-in
loop `for i, wf in enumerate(wfs)`, whose final value is `len(wfs) - 1`;
the loop therefore carries that frozen index `i_last` and records, per
epoch, which logger entry was written and which target was selected. -/

/-- One per-step log emission. -/
structure LogEvent where
  epoch : Nat
  logger_index : Nat
  selected_index : Nat
deriving Inhabited, DecidableEq

/-- The mutable state threaded through the epoch loop: the running full
parameter set `params`, the variable `shared_params`, the target list, and
the trace of log emissions. -/
structure OptLoopState where
  params : Params
  shared_params : Params
  wfs : List WaveFunctionData
  logs : List LogEvent
deriving Inhabited, DecidableEq

/-- One iteration of `for n_epoch in range(opt_config.n_epochs * n_wfs)`:
select a target, merge the running `params` with its unique parameters,
run the optimizer step, re-split into shared and unique parts, write the
unique part and the fresh metrics back into the selected target only, and
emit one log record through `wf_loggers[i]` (the stale index `i_last`). -/
def epoch_body (cfg : SharedOptimizationConfig)
    (step : Nat → Params → Params) (std_fn : Nat → ℚ) (i_last : Nat)
    (n : Nat) (s : OptLoopState) : Except String OptLoopState :=
  match get_index n s.wfs cfg with
  | Except.error e => Except.error e
  | Except.ok index_next =>
    let wf := s.wfs.getD index_next default
    let params2 := step n (merge_params s.params wf.unique_trainable_params)
    let sp := split_params params2 cfg.shared_modules
    Except.ok
      { params := params2
        shared_params := sp.1
        wfs := s.wfs.set index_next
          { unique_trainable_params := sp.2
            e_std := std_fn n
            n_opt_epochs := wf.n_opt_epochs + 1
            last_epoch_optimized := (n : Int) }
        logs := s.logs ++ [⟨n, i_last, index_next⟩] }

/-- Run `count` consecutive epochs starting at epoch index `start`. -/
def run_epochs (cfg : SharedOptimizationConfig)
    (step : Nat → Params → Params) (std_fn : Nat → ℚ) (i_last : Nat) :
    Nat → Nat → OptLoopState → Except String OptLoopState
  | _, 0, s => Except.ok s
  | start, count + 1, s =>
    match epoch_body cfg step std_fn i_last start s with
    | Except.error e => Except.error e
    | Except.ok s2 => run_epochs cfg step std_fn i_last (start + 1) count s2

/-- The opaque optimizer bookkeeping: present only so the return tuple has
the source's arity. -/
inductive OptState : Type
  | mk
deriving Inhabited, DecidableEq

/-- The configuration slice `optimize_shared` reads. -/
structure OptimizationConfig where
  n_epochs : Nat
  shared_optimization : SharedOptimizationConfig
deriving Inhabited

/-- `optimize_shared`: after the burn-in loop over all targets the running
`params` holds the merge of the initial shared parameters with the *last*
target's unique parameters (the Python loop variables `i` and `wf` leak
out of the burn-in loop), then the epoch loop runs
`opt_config.n_epochs * n_wfs` scheduler steps, and the function
`return`s the three values `(wfs, shared_params, opt_state)`. -/
def optimize_shared (opt_config : OptimizationConfig)
    (step : Nat → Params → Params) (std_fn : Nat → ℚ)
    (shared_params : Params) (wfs : List WaveFunctionData) :
    Except String (List WaveFunctionData × Params × OptState) :=
  match run_epochs opt_config.shared_optimization step std_fn
      (wfs.length - 1) 0 (opt_config.n_epochs * wfs.length)
      { params := merge_params shared_params
          ((wfs.getLast?.getD default).unique_trainable_params)
        shared_params := shared_params
        wfs := wfs
        logs := [] } with
  | Except.error e => Except.error e
  | Except.ok s => Except.ok (s.wfs, s.shared_params, OptState.mk)

/-! ## The caller `process_molecule_shared` (C8) -/

/-- A Python object appearing in the returned tuple. -/
inductive PyObj : Type
  | wfsObj (wfs : List WaveFunctionData)
  | paramsObj (p : Params)
  | optStateObj (o : OptState)
deriving Inhabited, DecidableEq

/-- The runtime tuple produced by `return wfs, shared_params, opt_state`. -/
def optimize_shared_return_tuple
    (r : List WaveFunctionData × Params × OptState) : List PyObj :=
  [PyObj.wfsObj r.1, PyObj.paramsObj r.2.1, PyObj.optStateObj r.2.2]

/-- Python tuple unpacking into four names,
`wfs, opt_get_params, opt_set_params, opt_state = ...`: raises a
`ValueError` unless the tuple has exactly four elements. -/
def unpack4 (t : List PyObj) :
    Except String (PyObj × PyObj × PyObj × PyObj) :=
  match t with
  | [a, b, c, d] => Except.ok (a, b, c, d)
  | _ => Except.error "ValueError: not enough values to unpack (expected 4)"

/-- The optimization branch of `process_molecule_shared`: when
`config.optimization.n_epochs > 0` it calls `optimize_shared` and
destructures the result into four variables. -/
def process_molecule_shared_opt (opt_config : OptimizationConfig)
    (step : Nat → Params → Params) (std_fn : Nat → ℚ)
    (shared_params : Params) (wfs : List WaveFunctionData) :
    Except String (Option (PyObj × PyObj × PyObj × PyObj)) :=
  if 0 < opt_config.n_epochs then
    match optimize_shared opt_config step std_fn shared_params wfs with
    | Except.error e => Except.error e
    | Except.ok r =>
        match unpack4 (optimize_shared_return_tuple r) with
        | Except.error e => Except.error e
        | Except.ok x => Except.ok (some x)
  else Except.ok none

/-- C8: `optimize_shared` returns a three-element tuple while its caller
unpacks four values, so for every configuration with `n_epochs > 0` the
caller never proceeds past the unpacking: whenever `optimize_shared`
returns, the destructuring raises `ValueError`, and in no case does the
optimization branch complete. -/
theorem c8_unpack_arity_mismatch (opt_config : OptimizationConfig)
    (step : Nat → Params → Params) (std_fn : Nat → ℚ)
    (shared_params : Params) (wfs : List WaveFunctionData)
    (hne : 0 < opt_config.n_epochs) :
    (∀ r, optimize_shared opt_config step std_fn shared_params wfs =
        Except.ok r →
      (optimize_shared_return_tuple r).length = 3 ∧
        process_molecule_shared_opt opt_config step std_fn shared_params wfs =
          Except.error "ValueError: not enough values to unpack (expected 4)") ∧
    ∀ x, process_molecule_shared_opt opt_config step std_fn shared_params wfs ≠
      Except.ok (some x) := by
  constructor
  · intro r hr
    refine ⟨rfl, ?_⟩
    rw [process_molecule_shared_opt, if_pos hne, hr]
    rfl
  · intro x hc
    rw [process_molecule_shared_opt, if_pos hne] at hc
    cases hr : optimize_shared opt_config step std_fn shared_params wfs with
    | error e => rw [hr] at hc; exact Except.noConfusion hc
    | ok r =>
        rw [hr] at hc
        simp [optimize_shared_return_tuple, unpack4] at hc

/-- Witness for C8: one epoch per target, one target, empty parameter
trees, identity optimizer step. -/
theorem c8_unpack_arity_mismatch_witness :
    0 < (1 : Nat) ∧
      ((∀ r, optimize_shared ⟨1, ⟨"round_robin", 50, []⟩⟩
            (fun _ p => p) (fun _ => 0) [] [⟨[], 0, 0, 0⟩] = Except.ok r →
        (optimize_shared_return_tuple r).length = 3 ∧
          process_molecule_shared_opt ⟨1, ⟨"round_robin", 50, []⟩⟩
              (fun _ p => p) (fun _ => 0) [] [⟨[], 0, 0, 0⟩] =
            Except.error
              "ValueError: not enough values to unpack (expected 4)") ∧
      ∀ x, process_molecule_shared_opt ⟨1, ⟨"round_robin", 50, []⟩⟩
          (fun _ p => p) (fun _ => 0) [] [⟨[], 0, 0, 0⟩] ≠
        Except.ok (some x)) :=
  ⟨Nat.one_pos,
    c8_unpack_arity_mismatch ⟨1, ⟨"round_robin", 50, []⟩⟩
      (fun _ p => p) (fun _ => 0) [] [⟨[], 0, 0, 0⟩] Nat.one_pos⟩

/-- C7: the per-step log record is not emitted to the selected target's
logger.  Concrete run: two targets, round-robin, two epochs, identity
optimizer step.  Epoch 0 selects target 0, but its record is written
through `wf_loggers[1]` --- the logger list is indexed with the value
`len(wfs) - 1 = 1` left in `i` by the earlier burn-in loop --- so the
selected target's logger receives nothing at epoch 0. -/
theorem c7_stale_logger_index :
    (run_epochs ⟨"round_robin", 50, ["sm"]⟩ (fun _ p => p) (fun _ => 0)
        (([⟨[(("ua", "w"), 1)], 0, 0, 0⟩, ⟨[(("ua", "b"), 2)], 0, 0, 0⟩] :
            List WaveFunctionData).length - 1) 0 2
        { params := merge_params [(("sm", "w"), 0)] [(("ua", "b"), 2)]
          shared_params := [(("sm", "w"), 0)]
          wfs := [⟨[(("ua", "w"), 1)], 0, 0, 0⟩, ⟨[(("ua", "b"), 2)], 0, 0, 0⟩]
          logs := [] }).map OptLoopState.logs =
      Except.ok [⟨0, 1, 0⟩, ⟨1, 1, 1⟩] ∧
    (1 : Nat) ≠ 0 := by
  constructor
  · rfl
  · decide

/-! ## Key-set lemmas for the shared/unique threading invariant (C6) -/

theorem containsKey_filter (q : ParamKey → Bool) (p : Params) (k : ParamKey) :
    containsKey (p.filter (fun kv => q kv.1)) k = (q k && containsKey p k) := by
  cases hq : q k with
  | true => rw [containsKey, plookup_filter_of_pos (q := q) hq]; simp [containsKey]
  | false => rw [containsKey, plookup_filter_of_neg (q := q) hq]; simp

theorem containsKey_merge (a b : Params) (k : ParamKey) :
    containsKey (merge_params a b) k = (containsKey b k || containsKey a k) := by
  rw [containsKey, plookup_merge_params]
  cases hb : plookup k b <;> simp [containsKey, hb, Option.orElse]

theorem containsKey_iff_mem {p : Params} {k : ParamKey} :
    containsKey p k = true ↔ k ∈ p.map Prod.fst := by
  induction p with
  | nil => simp [containsKey, plookup]
  | cons kv rest ih =>
      by_cases hk : kv.1 = k
      · simp [containsKey, plookup, hk]
      · simp only [containsKey, plookup_cons, if_neg hk, List.map_cons,
          List.mem_cons]
        rw [← containsKey]
        constructor
        · intro h; exact Or.inr (ih.mp h)
        · intro h
          rcases h with h | h
          · exact absurd h.symm hk
          · exact ih.mpr h

/-- Lookup-level key-set agreement of two parameter collections. -/
def SameKeys (a b : Params) : Prop :=
  ∀ k, containsKey a k = containsKey b k

theorem sameKeys_of_keys_eq {a b : Params}
    (h : a.map Prod.fst = b.map Prod.fst) : SameKeys a b := by
  intro k
  have ha := containsKey_iff_mem (p := a) (k := k)
  have hb := containsKey_iff_mem (p := b) (k := k)
  rw [h] at ha
  cases hca : containsKey a k <;> cases hcb : containsKey b k <;>
    simp_all

theorem plookup_eq_none_of_pred {q : ParamKey → Bool} {p : Params}
    {k : ParamKey} (hall : ∀ kv ∈ p, q kv.1 = true) (hk : q k = false) :
    plookup k p = none := by
  cases hp : plookup k p with
  | none => rfl
  | some v =>
      exfalso
      obtain ⟨w, hw⟩ := plookup_mem_of_isSome (k := k) (l := p) (by simp [hp])
      have := hall (k, w) hw
      simp [this] at hk

theorem containsKey_eq_false_of_no_match {mods : List String} {U : Params}
    {k : ParamKey} (hU : ∀ kv ∈ U, filter_func mods kv.1 = false)
    (hm : filter_func mods k = true) : containsKey U k = false := by
  cases hc : containsKey U k with
  | false => rfl
  | true =>
      exfalso
      obtain ⟨v, hv⟩ := plookup_mem_of_isSome (k := k) (l := U)
        (by simpa [containsKey] using hc)
      have := hU (k, v) hv
      simp [this] at hm

theorem getD_mem {α : Type} {l : List α} {i : Nat} (d : α)
    (h : i < l.length) : l.getD i d ∈ l := by
  rw [getD_eq_of_getElem? (List.getElem?_eq_getElem h)]
  exact List.getElem_mem h

theorem getD_set_eq {α : Type} (l : List α) (i : Nat) (a d : α)
    (h : i < l.length) : (l.set i a).getD i d = a := by
  induction l generalizing i with
  | nil => simp at h
  | cons x xs ih =>
      cases i with
      | zero => rfl
      | succ j => exact ih j (by simpa using h)

theorem getD_set_ne {α : Type} (l : List α) (i j : Nat) (a d : α)
    (h : j ≠ i) : (l.set i a).getD j d = l.getD j d := by
  induction l generalizing i j with
  | nil => simp
  | cons x xs ih =>
      cases i with
      | zero =>
          cases j with
          | zero => exact absurd rfl h
          | succ j2 => rfl
      | succ i2 =>
          cases j with
          | zero => rfl
          | succ j2 => exact ih i2 j2 (by omega)

theorem getLast_getD_mem {l : List WaveFunctionData} (hne : l ≠ []) :
    l.getLast?.getD default ∈ l := by
  rw [List.getLast?_eq_getLast l hne]
  exact List.getLast_mem hne

/-- Every index `get_index` returns is in range. -/
theorem get_index_lt {n : Nat} {wfs : List WaveFunctionData}
    {cfg : SharedOptimizationConfig} {i : Nat} (hpos : 0 < wfs.length)
    (h : get_index n wfs cfg = Except.ok i) : i < wfs.length := by
  by_cases h1 : cfg.scheduling_method = "round_robin"
  · rw [get_index, if_pos h1] at h
    injection h with h
    rw [← h]
    exact Nat.mod_lt _ hpos
  · by_cases h2 : cfg.scheduling_method = "stddev"
    · rw [get_index, if_neg h1, if_pos h2] at h
      have hne : wfs ≠ [] := by
        intro hc; rw [hc] at hpos; simp at hpos
      by_cases h3 : n < wfs.length * 10
      · rw [if_pos h3] at h
        injection h with h
        rw [← h]
        exact Nat.mod_lt _ hpos
      · rw [if_neg h3] at h
        by_cases h4 : (wf_ages n wfs).any (fun a => cfg.max_age < a) = true
        · rw [if_pos h4] at h
          injection h with h
          rw [← h]
          have hagene : wf_ages n wfs ≠ [] := by
            intro hc
            have : (wf_ages n wfs).length = wfs.length := by simp [wf_ages]
            rw [hc] at this
            rw [← this] at hpos
            simp at hpos
          have := (argmax_spec (wf_ages n wfs) 0 hagene).1
          simpa [wf_ages] using this
        · rw [if_neg h4] at h
          injection h with h
          rw [← h]
          have hstdne : wf_stddevs wfs ≠ [] := by
            intro hc
            have : (wf_stddevs wfs).length = wfs.length := by simp [wf_stddevs]
            rw [hc] at this
            rw [← this] at hpos
            simp at hpos
          have := (argmax_spec (wf_stddevs wfs) 0 hstdne).1
          simpa [wf_stddevs] using this
    · rw [get_index, if_neg h1, if_neg h2] at h
      exact Except.noConfusion h

/-- The threading invariant of the epoch loop: the `shared_params`
variable agrees (as a dictionary) with the pattern-matching part of the
running full `params`; the non-matching part of `params` and every
target's unique parameters all have the reference unique key set `U`. -/
def shared_state_inv (mods : List String) (U : Params)
    (s : OptLoopState) : Prop :=
  (∀ k, plookup k s.shared_params =
      plookup k (s.params.filter (fun kv => filter_func mods kv.1))) ∧
  SameKeys (s.params.filter (fun kv => !(filter_func mods kv.1))) U ∧
  ∀ wf ∈ s.wfs, SameKeys wf.unique_trainable_params U

/-- Under the invariant, merging the running `params` with a resident
target's unique parameters produces (as a dictionary) exactly the merge of
the current shared set with those unique parameters. -/
theorem merged_params_eq {mods : List String} {U : Params}
    {s : OptLoopState} (hU : ∀ kv ∈ U, filter_func mods kv.1 = false)
    (hinv : shared_state_inv mods U s) {wf : WaveFunctionData}
    (hwf : wf ∈ s.wfs) (k : ParamKey) :
    plookup k (merge_params s.params wf.unique_trainable_params) =
      plookup k (merge_params s.shared_params wf.unique_trainable_params) := by
  obtain ⟨h1, h2, h3⟩ := hinv
  rw [plookup_merge_params, plookup_merge_params]
  cases hu : plookup k wf.unique_trainable_params with
  | some v => simp [Option.orElse]
  | none =>
      simp only [Option.orElse]
      have hcu : containsKey U k = false := by
        rw [← h3 wf hwf k]
        simp [containsKey, hu]
      cases hm : filter_func mods k with
      | true =>
          rw [h1 k, plookup_filter_of_pos (q := fun k2 => filter_func mods k2) hm]
      | false =>
          have hp : plookup k s.params = none := by
            have hfp : plookup k
                (s.params.filter (fun kv => !(filter_func mods kv.1))) =
                plookup k s.params :=
              plookup_filter_of_pos (q := fun k2 => !(filter_func mods k2))
                (by simp [hm]) s.params
            have hck := h2 k
            rw [containsKey, containsKey, hfp] at hck
            rw [containsKey] at hcu
            cases hsp : plookup k s.params with
            | none => rfl
            | some w =>
                exfalso
                rw [hsp] at hck
                simp only [Option.isSome_some] at hck
                rw [← hck] at hcu
                exact Bool.noConfusion hcu
          have hsh : plookup k s.shared_params = none := by
            rw [h1 k]
            exact plookup_filter_of_neg (q := fun k2 => filter_func mods k2)
              hm s.params
          rw [hp, hsh]

/-- The non-matching part of the post-step full parameters keeps the
reference unique key set. -/
theorem step_filter_keys {mods : List String} {U : Params}
    {s : OptLoopState} (hU : ∀ kv ∈ U, filter_func mods kv.1 = false)
    (hinv : shared_state_inv mods U s)
    {step : Nat → Params → Params}
    (hstep : ∀ m p k, containsKey (step m p) k = containsKey p k)
    {wf : WaveFunctionData} (hwf : wf ∈ s.wfs) (n : Nat) :
    SameKeys ((step n (merge_params s.params
        wf.unique_trainable_params)).filter
      (fun kv => !(filter_func mods kv.1))) U := by
  obtain ⟨h1, h2, h3⟩ := hinv
  intro k
  rw [containsKey_filter (q := fun k2 => !(filter_func mods k2))]
  cases hm : filter_func mods k with
  | true =>
      simp only [hm, Bool.not_true, Bool.false_and]
      exact (containsKey_eq_false_of_no_match hU hm).symm
  | false =>
      simp only [hm, Bool.not_false, Bool.true_and]
      rw [hstep n _ k, containsKey_merge]
      have hpk : containsKey s.params k = containsKey U k := by
        have hck := h2 k
        rw [← hck, containsKey_filter (q := fun k2 => !(filter_func mods k2))]
        simp [hm]
      have huk : containsKey wf.unique_trainable_params k = containsKey U k :=
        h3 wf hwf k
      rw [huk, hpk, Bool.or_self]

/-- One epoch of the loop preserves the threading invariant and the
target-list length. -/
theorem epoch_body_inv {cfg : SharedOptimizationConfig}
    {step : Nat → Params → Params} {std_fn : Nat → ℚ} {i_last n : Nat}
    {U : Params}
    (hU : ∀ kv ∈ U, filter_func cfg.shared_modules kv.1 = false)
    (hstep : ∀ m p k, containsKey (step m p) k = containsKey p k)
    {s s2 : OptLoopState} (hpos : 0 < s.wfs.length)
    (hinv : shared_state_inv cfg.shared_modules U s)
    (hrun : epoch_body cfg step std_fn i_last n s = Except.ok s2) :
    shared_state_inv cfg.shared_modules U s2 ∧
      s2.wfs.length = s.wfs.length := by
  rw [epoch_body] at hrun
  cases hgi : get_index n s.wfs cfg with
  | error e => rw [hgi] at hrun; exact Except.noConfusion hrun
  | ok i =>
      rw [hgi] at hrun
      simp only at hrun
      injection hrun with hrun
      have hilt : i < s.wfs.length := get_index_lt hpos hgi
      have hwfmem : s.wfs.getD i default ∈ s.wfs := getD_mem default hilt
      have hkeys := step_filter_keys hU hinv hstep hwfmem n
      subst hrun
      refine ⟨⟨?_, ?_, ?_⟩, by simp⟩
      · intro k
        rw [split_params_eq_filter]
      · simpa using hkeys
      · intro wf2 hwf2
        simp only at hwf2
        rcases List.mem_or_eq_of_mem_set hwf2 with hmem | heq
        · exact hinv.2.2 wf2 hmem
        · subst heq
          simp only [split_params_eq_filter]
          exact hkeys

/-- Running any number of epochs preserves the threading invariant. -/
theorem run_epochs_inv {cfg : SharedOptimizationConfig}
    {step : Nat → Params → Params} {std_fn : Nat → ℚ} {i_last : Nat}
    {U : Params}
    (hU : ∀ kv ∈ U, filter_func cfg.shared_modules kv.1 = false)
    (hstep : ∀ m p k, containsKey (step m p) k = containsKey p k) :
    ∀ (count start : Nat) (s s2 : OptLoopState), 0 < s.wfs.length →
      shared_state_inv cfg.shared_modules U s →
      run_epochs cfg step std_fn i_last start count s = Except.ok s2 →
      shared_state_inv cfg.shared_modules U s2 ∧
        s2.wfs.length = s.wfs.length := by
  intro count
  induction count with
  | zero =>
      intro start s s2 hpos hinv hrun
      rw [run_epochs] at hrun
      injection hrun with hrun
      subst hrun
      exact ⟨hinv, rfl⟩
  | succ m ih =>
      intro start s s2 hpos hinv hrun
      rw [run_epochs] at hrun
      cases hb : epoch_body cfg step std_fn i_last start s with
      | error e => rw [hb] at hrun; exact Except.noConfusion hrun
      | ok smid =>
          rw [hb] at hrun
          obtain ⟨hinv2, hlen2⟩ := epoch_body_inv hU hstep hpos hinv hb
          obtain ⟨hinv3, hlen3⟩ := ih (start + 1) smid s2
            (by omega) hinv2 hrun
          exact ⟨hinv3, by omega⟩

/-- The state entering the epoch loop satisfies the threading invariant. -/
theorem initial_state_inv {mods : List String} {U shared0 : Params}
    {wfs0 : List WaveFunctionData} (hne : wfs0 ≠ [])
    (hshared : ∀ kv ∈ shared0, filter_func mods kv.1 = true)
    (hU : ∀ kv ∈ U, filter_func mods kv.1 = false)
    (huniq : ∀ wf ∈ wfs0, SameKeys wf.unique_trainable_params U) :
    shared_state_inv mods U
      { params := merge_params shared0
          ((wfs0.getLast?.getD default).unique_trainable_params)
        shared_params := shared0
        wfs := wfs0
        logs := [] } := by
  have hlast : SameKeys
      ((wfs0.getLast?.getD default).unique_trainable_params) U :=
    huniq _ (getLast_getD_mem hne)
  refine ⟨?_, ?_, ?_⟩
  · intro k
    cases hm : filter_func mods k with
    | true =>
        rw [plookup_filter_of_pos (q := fun k2 => filter_func mods k2) hm,
          plookup_merge_params]
        have hul : plookup k
            ((wfs0.getLast?.getD default).unique_trainable_params) = none := by
          have hcu : containsKey U k = false :=
            containsKey_eq_false_of_no_match hU hm
          have := hlast k
          rw [hcu, containsKey] at this
          cases hse : plookup k
              ((wfs0.getLast?.getD default).unique_trainable_params) with
          | none => rfl
          | some v => rw [hse] at this; simp at this
        rw [hul]
        simp [Option.orElse]
    | false =>
        rw [plookup_filter_of_neg (q := fun k2 => filter_func mods k2) hm]
        exact plookup_eq_none_of_pred hshared hm
  · intro k
    rw [containsKey_filter (q := fun k2 => !(filter_func mods k2))]
    cases hm : filter_func mods k with
    | true =>
        simp only [hm, Bool.not_true, Bool.false_and]
        exact (containsKey_eq_false_of_no_match hU hm).symm
    | false =>
        simp only [hm, Bool.not_false, Bool.true_and]
        rw [containsKey_merge]
        have hs0 : containsKey shared0 k = false := by
          rw [containsKey, plookup_eq_none_of_pred hshared hm]
          rfl
        rw [hs0, Bool.or_false]
        exact hlast k
  · exact huniq

/-- C6: at every epoch `n` of the loop, with all targets sharing one
unique key structure (reference key list `U`), the initial shared set
matching the patterns, unique leaves not matching, and a key-preserving
optimizer step: the full parameter set the step consumes equals (as a
dictionary) the merge of the current shared set --- the one re-split at
the end of the previous epoch, or the initial one at epoch 0 --- with the
selected target's unique parameters; and after the step the re-split
shared part overwrites `shared_params` while the unique part is written
back only into the selected target. -/
theorem c6_shared_unique_threading (cfg : SharedOptimizationConfig)
    (step : Nat → Params → Params) (std_fn : Nat → ℚ)
    (shared0 U : Params) (wfs0 : List WaveFunctionData)
    (hne : wfs0 ≠ [])
    (hshared : ∀ kv ∈ shared0, filter_func cfg.shared_modules kv.1 = true)
    (hU : ∀ kv ∈ U, filter_func cfg.shared_modules kv.1 = false)
    (huniq : ∀ wf ∈ wfs0,
      wf.unique_trainable_params.map Prod.fst = U.map Prod.fst)
    (hstep : ∀ m p k, containsKey (step m p) k = containsKey p k)
    (n : Nat) (s : OptLoopState)
    (hrun : run_epochs cfg step std_fn (wfs0.length - 1) 0 n
        { params := merge_params shared0
            ((wfs0.getLast?.getD default).unique_trainable_params)
          shared_params := shared0
          wfs := wfs0
          logs := [] } = Except.ok s)
    (i : Nat) (hi : get_index n s.wfs cfg = Except.ok i) :
    (∀ k, plookup k (merge_params s.params
          ((s.wfs.getD i default).unique_trainable_params)) =
        plookup k (merge_params s.shared_params
          ((s.wfs.getD i default).unique_trainable_params))) ∧
    ∃ s2, epoch_body cfg step std_fn (wfs0.length - 1) n s = Except.ok s2 ∧
      s2.shared_params =
        (split_params (step n (merge_params s.params
          ((s.wfs.getD i default).unique_trainable_params)))
          cfg.shared_modules).1 ∧
      (s2.wfs.getD i default).unique_trainable_params =
        (split_params (step n (merge_params s.params
          ((s.wfs.getD i default).unique_trainable_params)))
          cfg.shared_modules).2 ∧
      s2.wfs.length = s.wfs.length ∧
      ∀ j, j < s.wfs.length → j ≠ i →
        s2.wfs.getD j default = s.wfs.getD j default := by
  have hpos0 : 0 < wfs0.length := List.length_pos.mpr hne
  have huniq2 : ∀ wf ∈ wfs0, SameKeys wf.unique_trainable_params U :=
    fun wf hwf => sameKeys_of_keys_eq (huniq wf hwf)
  have hinv0 := initial_state_inv hne hshared hU huniq2
  obtain ⟨hinv, hlen⟩ := run_epochs_inv hU hstep n 0 _ s
    (by simpa using hpos0) hinv0 hrun
  have hpos : 0 < s.wfs.length := by
    simp only at hlen
    omega
  have hilt : i < s.wfs.length := get_index_lt hpos hi
  have hwfmem : s.wfs.getD i default ∈ s.wfs := getD_mem default hilt
  constructor
  · exact fun k => merged_params_eq hU hinv hwfmem k
  · have hb : epoch_body cfg step std_fn (wfs0.length - 1) n s = Except.ok
        { params := step n (merge_params s.params
            ((s.wfs.getD i default).unique_trainable_params))
          shared_params := (split_params (step n (merge_params s.params
            ((s.wfs.getD i default).unique_trainable_params)))
            cfg.shared_modules).1
          wfs := s.wfs.set i
            { unique_trainable_params := (split_params (step n (merge_params
                s.params ((s.wfs.getD i default).unique_trainable_params)))
                cfg.shared_modules).2
              e_std := std_fn n
              n_opt_epochs := (s.wfs.getD i default).n_opt_epochs + 1
              last_epoch_optimized := (n : Int) }
          logs := s.logs ++ [⟨n, wfs0.length - 1, i⟩] } := by
      rw [epoch_body, hi]
    refine ⟨_, hb, rfl, ?_, by simp, ?_⟩
    · simp only
      rw [getD_set_eq _ _ _ _ hilt]
    · intro j hj hji
      simp only
      rw [getD_set_ne _ _ _ _ _ hji]

/-- Concrete inputs for the C6 witness: one shared module pattern, two
targets with identical unique key structure. -/
def c6wCfg : SharedOptimizationConfig := ⟨"round_robin", 50, ["sm"]⟩

def c6wShared : Params := [(("sm", "w"), 0)]

def c6wU : Params := [(("u", "w"), 0)]

def c6wWfs : List WaveFunctionData :=
  [⟨[(("u", "w"), 1)], 0, 0, 0⟩, ⟨[(("u", "w"), 2)], 0, 0, 0⟩]

def c6wInit : OptLoopState :=
  { params := merge_params c6wShared
      ((c6wWfs.getLast?.getD default).unique_trainable_params)
    shared_params := c6wShared
    wfs := c6wWfs
    logs := [] }

/-- Witness for C6: identity optimizer step, epoch 0 (zero epochs run, so
the loop state is the initial one and the current shared set is the
initial shared set), selected index 0. -/
theorem c6_shared_unique_threading_witness :
    (c6wWfs ≠ [] ∧
      (∀ kv ∈ c6wShared, filter_func c6wCfg.shared_modules kv.1 = true) ∧
      (∀ kv ∈ c6wU, filter_func c6wCfg.shared_modules kv.1 = false) ∧
      (∀ wf ∈ c6wWfs,
        wf.unique_trainable_params.map Prod.fst = c6wU.map Prod.fst) ∧
      (∀ (m : Nat) (p : Params) (k : ParamKey),
        containsKey ((fun (_ : Nat) (p2 : Params) => p2) m p) k =
          containsKey p k) ∧
      run_epochs c6wCfg (fun _ p2 => p2) (fun _ => 0) (c6wWfs.length - 1) 0 0
          { params := merge_params c6wShared
              ((c6wWfs.getLast?.getD default).unique_trainable_params)
            shared_params := c6wShared
            wfs := c6wWfs
            logs := [] } = Except.ok c6wInit ∧
      get_index 0 c6wInit.wfs c6wCfg = Except.ok 0) ∧
    ((∀ k, plookup k (merge_params c6wInit.params
          ((c6wInit.wfs.getD 0 default).unique_trainable_params)) =
        plookup k (merge_params c6wInit.shared_params
          ((c6wInit.wfs.getD 0 default).unique_trainable_params))) ∧
      ∃ s2, epoch_body c6wCfg (fun _ p2 => p2) (fun _ => 0)
            (c6wWfs.length - 1) 0 c6wInit = Except.ok s2 ∧
        s2.shared_params =
          (split_params ((fun (_ : Nat) (p2 : Params) => p2) 0
            (merge_params c6wInit.params
              ((c6wInit.wfs.getD 0 default).unique_trainable_params)))
            c6wCfg.shared_modules).1 ∧
        (s2.wfs.getD 0 default).unique_trainable_params =
          (split_params ((fun (_ : Nat) (p2 : Params) => p2) 0
            (merge_params c6wInit.params
              ((c6wInit.wfs.getD 0 default).unique_trainable_params)))
            c6wCfg.shared_modules).2 ∧
        s2.wfs.length = c6wInit.wfs.length ∧
        ∀ j, j < c6wInit.wfs.length → j ≠ 0 →
          s2.wfs.getD j default = c6wInit.wfs.getD j default) :=
  ⟨⟨List.cons_ne_nil _ _, by decide, by decide, by decide,
      fun _ _ _ => rfl, rfl, rfl⟩,
    c6_shared_unique_threading c6wCfg (fun _ p2 => p2) (fun _ => 0)
      c6wShared c6wU c6wWfs (List.cons_ne_nil _ _) (by decide) (by decide)
      (by decide) (fun _ _ _ => rfl) 0 c6wInit rfl 0 rfl⟩

/-! ## Default containers of `WaveFunctionData` (C10)

In the source, `WaveFunctionData` is decorated with `@dataclass`, but the
assignments `checkpoints = {}` and `current_metrics = {}` carry no type
annotation, so the decorator does not turn them into per-instance fields
(only the annotated `mcmc_state`, `clipping_params`, `n_opt_epochs`,
`last_epoch_optimized` become dataclass fields).  They remain *class
attributes*, evaluated once at class-definition time; an instance's
attribute lookup for `checkpoints` / `current_metrics` resolves to those
same two dictionary objects until an instance assignment shadows them.
Object identity is modelled with an explicit heap of dictionaries
addressed by references. -/

abbrev Ref := Nat

/-- A heap of mutable dictionaries (checkpoint epoch -> payload). -/
structure Heap where
  store : List (List (Nat × Int))
deriving Inhabited, DecidableEq

/-- Allocate a fresh empty dictionary, returning its reference. -/
def Heap.alloc (h : Heap) : Heap × Ref :=
  (⟨h.store ++ [[]]⟩, h.store.length)

def Heap.read (h : Heap) (r : Ref) : List (Nat × Int) :=
  h.store.getD r []

def Heap.write (h : Heap) (r : Ref) (d : List (Nat × Int)) : Heap :=
  ⟨h.store.set r d⟩

/-- `d[key] = v` on the dictionary behind reference `r`. -/
def dict_insert (h : Heap) (r : Ref) (key : Nat) (v : Int) : Heap :=
  h.write r ((key, v) :: h.read r)

def nlookup (key : Nat) : List (Nat × Int) → Option Int
  | [] => none
  | kv :: rest => if kv.1 = key then some kv.2 else nlookup key rest

/-- `d.get(key)` on the dictionary behind reference `r`. -/
def dict_get (h : Heap) (r : Ref) (key : Nat) : Option Int :=
  nlookup key (h.read r)

/-- The class attributes of `WaveFunctionData`: references to the two
dictionaries `checkpoints = {}` and `current_metrics = {}`, created once
when the class body is evaluated. -/
structure WaveFunctionDataClassAttrs where
  checkpoints_ref : Ref
  current_metrics_ref : Ref
deriving DecidableEq

/-- Class-body evaluation: the two default dictionaries are allocated
exactly once. -/
def eval_class_body (h : Heap) : Heap × WaveFunctionDataClassAttrs :=
  (((h.alloc).1.alloc).1, ⟨(h.alloc).2, ((h.alloc).1.alloc).2⟩)

/-- The container attributes of one `WaveFunctionData()` instance as the
generated `__init__` leaves them: no instance slot is assigned for the
unannotated names, so lookup falls back to the class attribute
references. -/
structure WFContainerView where
  checkpoints : Ref
  current_metrics : Ref
deriving DecidableEq

def WaveFunctionData_new (cls : WaveFunctionDataClassAttrs) :
    WFContainerView :=
  ⟨cls.checkpoints_ref, cls.current_metrics_ref⟩

def c10Cls : WaveFunctionDataClassAttrs := (eval_class_body ⟨[]⟩).2

def c10HeapInit : Heap := (eval_class_body ⟨[]⟩).1

/-- The first target record, `wf = WaveFunctionData()` (as in `init_wfs`). -/
def c10wf1 : WFContainerView := WaveFunctionData_new c10Cls

/-- A second, distinct target record created by another
`WaveFunctionData()` call. -/
def c10wf2 : WFContainerView := WaveFunctionData_new c10Cls

/-- C10 fails on the code: two distinct `WaveFunctionData` records share
the identical default container objects for `checkpoints` and
`current_metrics`, and a mutation performed through the first record's
`checkpoints` dictionary is visible through the second record's. -/
theorem c10_shared_default_containers :
    c10wf1.checkpoints = c10wf2.checkpoints ∧
      c10wf1.current_metrics = c10wf2.current_metrics ∧
      dict_get c10HeapInit c10wf2.checkpoints 3 = none ∧
      dict_get (dict_insert c10HeapInit c10wf1.checkpoints 3 99)
        c10wf2.checkpoints 3 = some 99 := by
  refine ⟨rfl, rfl, rfl, rfl⟩

end DeepErwin
